import Mathlib

/-!
Verification of the kops node-convergence engine against its specification.

The development shallowly embeds:
* the task convergence run loop (`RunTasks`), modelled from the spec, since
  only its caller `NodeUpCommand.Run` appears in the repository sources;
* the tail of `NodeUpCommand.Run` (target selection, `checkExisting`,
  `RunTasks` invocation and `Finish`), translated from the source;
* `evaluateHostnameOverride`, translated from the source;
* `KubeconfigBuilder.BuildRestConfig`, translated from the source.
-/

namespace Kops

/-- Result of one attempt of a task's `Run` method against the target:
either it converged, failed transiently (retry next pass), or failed
permanently (abort the whole run). -/
inductive RunResult
  | success
  | transient
  | permanent
deriving DecidableEq, Repr

/-- Modelled from the spec: a Task is a named unit carrying dependency
references by name and a behaviour telling how its k-th `Run` attempt ends
(the spec's Task contract, section 4.1; task implementations are external
to the engine). -/
structure Task where
  name : String
  deps : List String
  behavior : Nat → RunResult

/-- Names of all tasks present in a run's collection. -/
def taskNames (tasks : List Task) : List String :=
  tasks.map Task.name

/-- Modelled from the spec: `Dependencies(all tasks)` returns the subset of
the collection this task must wait on, so dependency references naming
absent tasks are dropped. -/
def effDeps (names : List String) (t : Task) : List String :=
  t.deps.filter (fun d => names.contains d)

/-- Dependency references of the task named `a` (empty for an absent name). -/
def stepDeps (tasks : List Task) (a : String) : List String :=
  match tasks.find? (fun t => t.name == a) with
  | some t => effDeps (taskNames tasks) t
  | none => []

/-- Edge of the dependency relation restricted to the run's collection:
`a` depends directly on `b`. -/
def Edge (tasks : List Task) (a b : String) : Prop :=
  b ∈ stepDeps tasks a

/-- One saturation step of the dependency closure: add the direct
dependencies of every member. -/
def expandOnce (tasks : List Task) (s : Finset String) : Finset String :=
  s ∪ s.biUnion (fun a => (stepDeps tasks a).toFinset)

/-- Iterated saturation of a dependency set. -/
def saturate (tasks : List Task) : Nat → Finset String → Finset String
  | 0, s => s
  | f + 1, s => saturate tasks f (expandOnce tasks s)

/-- Modelled from the spec: each task's dependency closure (everything
reachable through at least one dependency edge), used by the run loop's
cycle detection. -/
def closureFrom (tasks : List Task) (a : String) : Finset String :=
  saturate tasks ((taskNames tasks).toFinset.card) (stepDeps tasks a).toFinset

/-- A task participates in a cycle when its own dependency closure includes
itself. -/
def selfCyclic (tasks : List Task) (a : String) : Bool :=
  decide (a ∈ closureFrom tasks a)

/-- Tasks whose dependency closure includes themselves. -/
def cyclicTasks (tasks : List Task) : List Task :=
  tasks.filter (fun t => selfCyclic tasks t.name)

/-- One recorded attempt of the run loop: at pass `pass` the task called
`name` was attempted, with the given result. -/
structure Event where
  pass : Nat
  name : String
  result : RunResult
deriving DecidableEq, Repr

/-- Number of attempts a task has undergone so far, read off the trace. -/
def attemptsOf (trace : List Event) (a : String) : Nat :=
  (trace.filter (fun e => e.name == a)).length

/-- Names of the tasks whose recorded attempts succeeded. -/
def successNames (evs : List Event) : List String :=
  (evs.filter (fun e => decide (e.result = RunResult.success))).map Event.name

/-- Outcome of a single pass: either the pass completed (`ok`, with the
newly completed tasks and the attempts made) or a permanent task failure
aborted it (`aborted`). -/
inductive PassOut
  | ok (newly : List String) (events : List Event)
  | aborted (failed : String) (events : List Event)

/-- Modelled from the spec: one pass of the run loop (section 4.3 step 3).
Every still-pending task whose effective dependencies are all Done as of
the start of the pass is attempted; success marks it newly Done, a
transient failure leaves it pending, a permanent failure aborts the run
immediately. `trace0` is the trace as of the start of the pass and feeds
each task's attempt count. -/
def runPass (names : List String) (trace0 : List Event) (p : Nat)
    (done : List String) : List Task → PassOut
  | [] => .ok [] []
  | t :: rest =>
    if t.name ∈ done then runPass names trace0 p done rest
    else if (∀ d ∈ effDeps names t, d ∈ done) then
      match t.behavior (attemptsOf trace0 t.name) with
      | .success =>
        match runPass names trace0 p done rest with
        | .ok newly evs => .ok (t.name :: newly) (⟨p, t.name, .success⟩ :: evs)
        | .aborted f evs => .aborted f (⟨p, t.name, .success⟩ :: evs)
      | .transient =>
        match runPass names trace0 p done rest with
        | .ok newly evs => .ok newly (⟨p, t.name, .transient⟩ :: evs)
        | .aborted f evs => .aborted f (⟨p, t.name, .transient⟩ :: evs)
      | .permanent => .aborted t.name [⟨p, t.name, .permanent⟩]
    else runPass names trace0 p done rest

/-- Terminal outcome of a run, as classified by the spec's error taxonomy
(section 7): success, configuration error (cycle), permanent task failure,
stagnation (no-progress budget exhausted), or fuel exhaustion (a model
artefact; the fuel supplied by `RunTasks` is always sufficient). -/
inductive Outcome
  | success (passes : Nat) (done : List String)
  | configError (cycle : List String)
  | permanentFail (failed : String)
  | stagnation (pending : List String)
  | outOfFuel
deriving DecidableEq, Repr

/-- A finished run: its terminal outcome plus the full trace of attempts. -/
structure RunReport where
  outcome : Outcome
  trace : List Event
deriving DecidableEq, Repr

/-- Tasks of the collection that are not yet Done. -/
def pendingOf (names done : List String) : List String :=
  names.filter (fun a => decide (a ∉ done))

/-- Modelled from the spec: the run loop (section 4.3 steps 2-5).  Each
iteration stops successfully when no pending tasks remain, otherwise runs
one pass; if the pass completed zero newly-Done tasks the remaining
no-progress budget is decremented (stagnation once it reaches zero), and
any progress resets it to the configured maximum. -/
def runLoop (tasks : List Task) (names : List String) (maxB : Nat) :
    Nat → Nat → Nat → List String → List Event → RunReport
  | 0, _, _, _, trace => ⟨.outOfFuel, trace⟩
  | fuel + 1, budget, passNo, done, trace =>
    if (∀ a ∈ names, a ∈ done) then ⟨.success passNo done, trace⟩
    else
      match runPass names trace (passNo + 1) done tasks with
      | .aborted f evs => ⟨.permanentFail f, trace ++ evs⟩
      | .ok newly evs =>
        if newly = [] then
          if budget - 1 = 0 then ⟨.stagnation (pendingOf names done), trace ++ evs⟩
          else runLoop tasks names maxB fuel (budget - 1) (passNo + 1) done (trace ++ evs)
        else runLoop tasks names maxB fuel maxB (passNo + 1) (done ++ newly) (trace ++ evs)

/-- Fuel supplied to the loop: enough for every possible interleaving of
progress passes (at most one per task) and no-progress passes (at most
`maxB` in a row). -/
def initialFuel (tasks : List Task) (maxB : Nat) : Nat :=
  (tasks.length + 1) * (maxB + 1) + 1

/-- Modelled from the spec: `fi.Context.RunTasks` (section 4.3), whose
implementation is not among the repository's source files, only its caller
`NodeUpCommand.Run`.  It first detects dependency cycles (failing with a
configuration error naming them before any task is attempted) and then
drives the pass loop with the caller-supplied no-progress budget. -/
def RunTasks (tasks : List Task) (maxB : Nat) : RunReport :=
  if (cyclicTasks tasks).isEmpty then
    runLoop tasks (taskNames tasks) maxB (initialFuel tasks maxB) maxB 0 [] []
  else ⟨.configError (taskNames (cyclicTasks tasks)), []⟩

/-- A dependency-free task whose first `K` attempts fail transiently and
whose later attempts succeed: the test-harness behaviour of the spec's
transient-retry property. -/
def transientTask (nm : String) (K : Nat) : Task :=
  ⟨nm, [], fun k => if k < K then .transient else .success⟩

/-- Attempts recorded by a pass, whether it completed or aborted. -/
def passEvents : PassOut → List Event
  | .ok _ evs => evs
  | .aborted _ evs => evs

/-- Dependency-ordering property of a trace: each attempted task's
effective dependencies all have a strictly earlier successful attempt. -/
def DepOrdered (tasks : List Task) (tr : List Event) : Prop :=
  ∀ (T1 : List Event) (e : Event) (T2 : List Event), tr = T1 ++ e :: T2 →
    ∀ d ∈ stepDeps tasks e.name, ∃ e2 ∈ T1, e2.name = d ∧
      e2.result = RunResult.success ∧ e2.pass < e.pass

/-- At-most-once application discipline of a trace: two attempts of the
same task happen in strictly increasing passes, and no attempt follows a
successful one. -/
def OnceOrdered (tr : List Event) : Prop :=
  List.Pairwise (fun e1 e2 => e1.name = e2.name →
    e1.pass < e2.pass ∧ e1.result ≠ RunResult.success) tr

/-- A dependency chain of the collection: a nonempty list of task names,
each depending directly on the next one. Its length is the spec's "length
of a dependency chain". -/
inductive IsChain (tasks : List Task) : List String → Prop
  | single (a : String) : a ∈ taskNames tasks → IsChain tasks [a]
  | cons (a b : String) (l : List String) : b ∈ stepDeps tasks a →
      IsChain tasks (b :: l) → IsChain tasks (a :: b :: l)

/-- Boolean readiness of a task: still pending, with every effective
dependency already Done. -/
def readyB (names done : List String) (t : Task) : Bool :=
  decide (t.name ∉ done) && decide (∀ d ∈ effDeps names t, d ∈ done)

/-- The Done set produced by one pass in which every attempted task
succeeds: the old set plus every ready pending task. -/
def passFun (tasks : List Task) (names : List String) (done : List String) :
    List String :=
  done ++ (tasks.filter (readyB names done)).map Task.name

/-- Iterates of the all-success pass function. -/
def passIter (tasks : List Task) (names : List String) (done : List String) :
    Nat → List String
  | 0 => done
  | m + 1 => passFun tasks names (passIter tasks names done m)

/-- The spec's cycle scenario (section 8): X depends on Y and Y on X. -/
def exCycleTasks : List Task :=
  [⟨"X", ["Y"], fun _ => .success⟩, ⟨"Y", ["X"], fun _ => .success⟩]

/-- The spec's chain scenario (section 8): A with no dependencies, B and C
each depending on A; every task succeeds when attempted. -/
def exChainTasks : List Task :=
  [⟨"A", [], fun _ => .success⟩, ⟨"B", ["A"], fun _ => .success⟩,
    ⟨"C", ["A"], fun _ => .success⟩]

/-- Constant from src/unnamed/part_002 line 819: the no-progress budget
handed to `RunTasks` ("We should probably retry for a long time"). -/
def MaxAttemptsWithNoProgress : Nat := 100

/-- Terminal outcome of `NodeUpCommand.Run` from the target switch onward:
the unsupported-target error return, one of the `glog.Exitf` process exits,
or a normal `nil` return. -/
inductive NodeUpOutcome
  | errUnsupportedTarget (target : String)
  | exitContextError
  | exitRunTasksError
  | exitFinishError
  | ok
deriving DecidableEq, Repr

/-- Observable effects of the tail of `NodeUpCommand.Run`: whether
`fi.NewContext` was invoked, the `checkExisting` flag it received, how many
times `context.RunTasks` and `target.Finish` were called, the budget passed
to `RunTasks`, and the terminal outcome. -/
structure NodeUpTrace where
  newContextCalled : Bool
  checkExisting : Option Bool
  runTasksCalls : Nat
  runTasksBudget : Option Nat
  finishCalls : Nat
  outcome : NodeUpOutcome
deriving DecidableEq, Repr

/-- The command state relevant to the target switch of `NodeUpCommand.Run`
(src/unnamed/part_002 lines 821-830): only the `Target` selector feeds the
modelled tail. -/
structure NodeUpCommand where
  Target : String

/-- Shallow embedding of `NodeUpCommand.Run` from the target switch onward
(src/unnamed/part_002 lines 989-1021), given that the configuration
preamble succeeded.  `contextErr`, `runTasksErr` and `finishErr` stand for
the error results of the external calls `fi.NewContext`,
`context.RunTasks` and `target.Finish`; an error in any of them reaches a
`glog.Exitf`, which terminates the process.  `checkExisting` starts `true`
and only the `"cloudinit"` branch sets it `false`; the `default` branch
returns the "unsupported target type" error before the context is built. -/
def NodeUpCommand.Run (c : NodeUpCommand)
    (contextErr runTasksErr finishErr : Bool) : NodeUpTrace :=
  if c.Target = "direct" ∨ c.Target = "dryrun" ∨ c.Target = "cloudinit" then
    let checkExisting := if c.Target = "cloudinit" then false else true
    if contextErr then
      ⟨true, some checkExisting, 0, none, 0, .exitContextError⟩
    else if runTasksErr then
      ⟨true, some checkExisting, 1, some MaxAttemptsWithNoProgress, 0, .exitRunTasksError⟩
    else if finishErr then
      ⟨true, some checkExisting, 1, some MaxAttemptsWithNoProgress, 1, .exitFinishError⟩
    else
      ⟨true, some checkExisting, 1, some MaxAttemptsWithNoProgress, 1, .ok⟩
  else
    ⟨false, none, 0, none, 0, .errUnsupportedTarget c.Target⟩

/-- Shallow embedding of `evaluateHostnameOverride` (src/unnamed/part_002
lines 1040-1060).  `awsLocalHostname` stands for the result of reading
`metadata://aws/meta-data/local-hostname` (`none` on a read error); the
function is only consulted when the branch taking it is reached.  The
source computes a trimmed, lowercased copy `k` of the input but compares
the raw input against `"@aws"`. -/
def evaluateHostnameOverride (hostnameOverride : String)
    (awsLocalHostname : Option String) : Option String :=
  let _k := (hostnameOverride.trim).toLower
  if hostnameOverride ≠ "@aws" then
    some hostnameOverride
  else
    match awsLocalHostname with
    | none => none
    | some v => some v.trim

/-- Fields of `KubeconfigBuilder` used by `BuildRestConfig`
(src/upup/pkg/kutil/kubecfg_builder.go lines 33-49); byte-slice fields are
modelled as `Option (List Nat)` so a nil slice stays distinguishable. -/
structure KubeconfigBuilder where
  KubeMasterIP : String
  KubeBearerToken : String
  KubeUser : String
  KubePassword : String
  CACert : Option (List Nat)
  ClientCert : Option (List Nat)
  ClientKey : Option (List Nat)
deriving DecidableEq, Repr

/-- The subset of `restclient.Config` populated by `BuildRestConfig`;
unset Go string fields keep their zero value `""`. -/
structure RestConfig where
  Host : String
  CAData : Option (List Nat)
  CertData : Option (List Nat)
  KeyData : Option (List Nat)
  BearerToken : String
  Username : String
  Password : String
deriving DecidableEq, Repr

/-- Shallow embedding of `KubeconfigBuilder.BuildRestConfig`
(src/upup/pkg/kutil/kubecfg_builder.go lines 63-80): builds the rest
config, preferring the bearer token over username/password, and returns a
nil error on every path. -/
def KubeconfigBuilder.BuildRestConfig (c : KubeconfigBuilder) :
    Except String RestConfig :=
  let base : RestConfig :=
    { Host := "https://" ++ c.KubeMasterIP
      CAData := c.CACert
      CertData := c.ClientCert
      KeyData := c.ClientKey
      BearerToken := ""
      Username := ""
      Password := "" }
  if c.KubeBearerToken ≠ "" then
    .ok { base with BearerToken := c.KubeBearerToken }
  else
    .ok { base with Username := c.KubeUser, Password := c.KubePassword }

theorem stepDeps_transientTask (nm : String) (K : Nat) (a : String) :
    stepDeps [transientTask nm K] a = [] := by
  unfold stepDeps
  cases hf : List.find? (fun t => t.name == a) [transientTask nm K] with
  | none => rfl
  | some t =>
    have ht := List.mem_of_find?_eq_some hf
    simp only [List.mem_singleton] at ht
    subst ht
    rfl

theorem saturate_of_no_deps (tasks : List Task)
    (h : ∀ a, stepDeps tasks a = []) :
    ∀ (f : Nat) (s : Finset String), saturate tasks f s = s := by
  intro f
  induction f with
  | zero => intro s; rfl
  | succ f ih =>
    intro s
    have hexp : expandOnce tasks s = s := by
      ext x
      simp [expandOnce, h]
    rw [saturate, hexp, ih]

theorem cyclicTasks_transientTask (nm : String) (K : Nat) :
    (cyclicTasks [transientTask nm K]).isEmpty = true := by
  have hc : ∀ a, selfCyclic [transientTask nm K] a = false := by
    intro a
    unfold selfCyclic closureFrom
    rw [saturate_of_no_deps _ (stepDeps_transientTask nm K),
      stepDeps_transientTask]
    simp
  simp [cyclicTasks, List.filter_eq_nil_iff, hc]

theorem attemptsOf_append_one (trace : List Event) (p : Nat) (nm : String)
    (r : RunResult) :
    attemptsOf (trace ++ [⟨p, nm, r⟩]) nm = attemptsOf trace nm + 1 := by
  simp [attemptsOf]

theorem runPass_transientTask (nm : String) (K p j : Nat) (trace : List Event)
    (hj : attemptsOf trace nm = j) :
    runPass [nm] trace p [] [transientTask nm K] =
      if j < K then .ok [] [⟨p, nm, .transient⟩]
      else .ok [nm] [⟨p, nm, .success⟩] := by
  by_cases hK : j < K <;>
    simp [runPass, transientTask, effDeps, hj, hK]

/-- While attempts keep failing transiently and budget remains, the loop
keeps retrying the single pending task and succeeds at attempt `K`,
reporting `K + 1` passes. -/
theorem runLoop_transient_success (nm : String) (K B : Nat) :
    ∀ (d j fuel budget : Nat) (trace : List Event), K - j = d → j ≤ K →
      attemptsOf trace nm = j → d + 2 ≤ fuel → d + 1 ≤ budget →
      (runLoop [transientTask nm K] [nm] B fuel budget j [] trace).outcome =
        .success (K + 1) [nm] := by
  intro d
  induction d with
  | zero =>
    intro j fuel budget trace hd hj ha hf hb
    obtain ⟨f, rfl⟩ : ∃ f, fuel = (f + 1) + 1 := ⟨fuel - 2, by omega⟩
    rw [runLoop]
    rw [if_neg (by simp)]
    rw [runPass_transientTask nm K (j + 1) j trace ha, if_neg (by omega)]
    simp only
    rw [if_neg (by simp)]
    rw [runLoop]
    rw [if_pos (by simp)]
    have hjK : j + 1 = K + 1 := by omega
    simp [hjK]
  | succ d ih =>
    intro j fuel budget trace hd hj ha hf hb
    obtain ⟨f, rfl⟩ : ∃ f, fuel = f + 1 := ⟨fuel - 1, by omega⟩
    rw [runLoop]
    rw [if_neg (by simp)]
    rw [runPass_transientTask nm K (j + 1) j trace ha, if_pos (by omega)]
    simp only
    rw [if_true, if_neg (by omega)]
    exact ih (j + 1) f (budget - 1) (trace ++ [⟨j + 1, nm, .transient⟩])
      (by omega) (by omega) (by rw [attemptsOf_append_one, ha]) (by omega)
      (by omega)

/-- When at least `budget` more transient failures are coming, the loop
exhausts the no-progress budget and stagnates on the pending task. -/
theorem runLoop_transient_stagnation (nm : String) (K B : Nat) :
    ∀ (budget j fuel : Nat) (trace : List Event), 1 ≤ budget →
      budget + j ≤ K → attemptsOf trace nm = j → budget + 1 ≤ fuel →
      (runLoop [transientTask nm K] [nm] B fuel budget j [] trace).outcome =
        .stagnation [nm] := by
  intro budget
  induction budget with
  | zero => intro j fuel trace h1 _ _ _; omega
  | succ b ih =>
    intro j fuel trace _ hbK ha hf
    obtain ⟨f, rfl⟩ : ∃ f, fuel = f + 1 := ⟨fuel - 1, by omega⟩
    rw [runLoop]
    rw [if_neg (by simp)]
    rw [runPass_transientTask nm K (j + 1) j trace ha, if_pos (by omega)]
    simp only
    rw [if_true]
    by_cases hb : b = 0
    · rw [if_pos (by omega)]
      simp [pendingOf]
    · rw [if_neg (by omega)]
      have hb1 : b + 1 - 1 = b := by omega
      rw [hb1]
      exact ih (j + 1) f (trace ++ [⟨j + 1, nm, .transient⟩]) (by omega)
        (by omega) (by rw [attemptsOf_append_one, ha]) (by omega)

/-- C5: the Target's `Finish` is called exactly once per run, only after
`RunTasks` completed successfully over the collection; on a fatal run
failure `Finish` is never called. -/
theorem C5_finish_after_success :
    ∀ (c : NodeUpCommand) (cE rE fE : Bool),
      (c.Run cE rE fE).finishCalls ≤ 1 ∧
      ((c.Run cE rE fE).finishCalls = 1 ↔
        (c.Run cE rE fE).runTasksCalls = 1 ∧ rE = false) := by
  intro c cE rE fE
  by_cases h : c.Target = "direct" ∨ c.Target = "dryrun" ∨ c.Target = "cloudinit" <;>
    cases cE <;> cases rE <;> cases fE <;>
      simp [NodeUpCommand.Run, h]

/-- Witness for C5 at the dryrun target with all external calls
succeeding: `Finish` runs exactly once, after the one successful
`RunTasks` invocation. -/
theorem C5_finish_after_success_witness :
    ((NodeUpCommand.mk "dryrun").Run false false false).finishCalls ≤ 1 ∧
    (((NodeUpCommand.mk "dryrun").Run false false false).finishCalls = 1 ↔
      ((NodeUpCommand.mk "dryrun").Run false false false).runTasksCalls = 1 ∧
        false = false) :=
  C5_finish_after_success (NodeUpCommand.mk "dryrun") false false false

/-- C6: the `checkExisting` flag handed to the convergence context is true
for the direct and dryrun targets and false exactly for cloudinit. -/
theorem C6_checkExisting_modes :
    ∀ (cE rE fE : Bool),
      ((NodeUpCommand.mk "direct").Run cE rE fE).checkExisting = some true ∧
      ((NodeUpCommand.mk "dryrun").Run cE rE fE).checkExisting = some true ∧
      ∀ t : String,
        (((NodeUpCommand.mk t).Run cE rE fE).checkExisting = some false ↔
          t = "cloudinit") := by
  intro cE rE fE
  refine ⟨?_, ?_, ?_⟩
  · cases cE <;> cases rE <;> cases fE <;> simp [NodeUpCommand.Run]
  · cases cE <;> cases rE <;> cases fE <;> simp [NodeUpCommand.Run]
  · intro t
    by_cases h1 : t = "direct"
    · subst h1; cases cE <;> cases rE <;> cases fE <;> simp [NodeUpCommand.Run]
    · by_cases h2 : t = "dryrun"
      · subst h2; cases cE <;> cases rE <;> cases fE <;> simp [NodeUpCommand.Run]
      · by_cases h3 : t = "cloudinit"
        · subst h3; cases cE <;> cases rE <;> cases fE <;> simp [NodeUpCommand.Run]
        · cases cE <;> cases rE <;> cases fE <;>
            simp [NodeUpCommand.Run, h1, h2, h3]

/-- Witness for C6: with all external calls succeeding, direct receives
`checkExisting = true` and cloudinit receives `checkExisting = false`. -/
theorem C6_checkExisting_modes_witness :
    ((NodeUpCommand.mk "direct").Run false false false).checkExisting = some true ∧
    ((NodeUpCommand.mk "cloudinit").Run false false false).checkExisting = some false :=
  ⟨(C6_checkExisting_modes false false false).1,
    ((C6_checkExisting_modes false false false).2.2 "cloudinit").mpr rfl⟩

/-- C7: the no-progress budget is the positive constant
`MaxAttemptsWithNoProgress = 100`, and it is exactly what `RunTasks`
receives whenever it is invoked. -/
theorem C7_no_progress_budget :
    MaxAttemptsWithNoProgress = 100 ∧ 0 < MaxAttemptsWithNoProgress ∧
    ∀ (c : NodeUpCommand) (cE rE fE : Bool),
      (c.Run cE rE fE).runTasksCalls = 1 →
      (c.Run cE rE fE).runTasksBudget = some MaxAttemptsWithNoProgress := by
  refine ⟨rfl, by decide, ?_⟩
  intro c cE rE fE hcall
  by_cases h : c.Target = "direct" ∨ c.Target = "dryrun" ∨ c.Target = "cloudinit" <;>
    cases cE <;> cases rE <;> cases fE <;>
      simp [NodeUpCommand.Run, h] at hcall ⊢

/-- Witness for C7 at the direct target with all external calls
succeeding: `RunTasks` is invoked once and receives the constant. -/
theorem C7_no_progress_budget_witness :
    ((NodeUpCommand.mk "direct").Run false false false).runTasksCalls = 1 ∧
    ((NodeUpCommand.mk "direct").Run false false false).runTasksBudget =
      some MaxAttemptsWithNoProgress :=
  ⟨by decide, C7_no_progress_budget.2.2 (NodeUpCommand.mk "direct") false false false (by decide)⟩

/-- C8: any target selector other than direct, dryrun and cloudinit makes
`NodeUpCommand.Run` return the unsupported-target error without building a
context and without attempting any task. -/
theorem C8_unsupported_target :
    ∀ (c : NodeUpCommand) (cE rE fE : Bool),
      c.Target ≠ "direct" → c.Target ≠ "dryrun" → c.Target ≠ "cloudinit" →
      c.Run cE rE fE =
        ⟨false, none, 0, none, 0, .errUnsupportedTarget c.Target⟩ := by
  intro c cE rE fE h1 h2 h3
  have h : ¬(c.Target = "direct" ∨ c.Target = "dryrun" ∨ c.Target = "cloudinit") := by
    simp [h1, h2, h3]
  simp [NodeUpCommand.Run, h]

/-- Witness for C8 at the selector "local" (the kops cloudup target name,
unsupported here): the error return with nothing invoked. -/
theorem C8_unsupported_target_witness :
    ("local" ≠ "direct" ∧ "local" ≠ "dryrun" ∧ "local" ≠ "cloudinit") ∧
    (NodeUpCommand.mk "local").Run false false false =
      ⟨false, none, 0, none, 0, .errUnsupportedTarget "local"⟩ :=
  ⟨⟨by decide, by decide, by decide⟩,
    C8_unsupported_target (NodeUpCommand.mk "local") false false false
      (by decide) (by decide) (by decide)⟩

/-- C9: `evaluateHostnameOverride` returns any input other than the exact
literal "@aws" unchanged with a nil error, whatever the metadata service
would answer: the trimmed, lowercased copy is never consulted. -/
theorem C9_hostname_override_passthrough :
    ∀ (s : String) (m : Option String), s ≠ "@aws" →
      evaluateHostnameOverride s m = some s := by
  intro s m hs
  simp [evaluateHostnameOverride, hs]

/-- Witness for C9 at the input "@AWS": despite lowercasing to "@aws" it is
returned as-is, not resolved through the metadata oracle. -/
theorem C9_hostname_override_passthrough_witness :
    ("@AWS" ≠ "@aws") ∧
    evaluateHostnameOverride "@AWS" (some "ip-10-0-0-1") = some "@AWS" :=
  ⟨by decide,
    C9_hostname_override_passthrough "@AWS" (some "ip-10-0-0-1") (by decide)⟩

/-- C10: `BuildRestConfig` never returns an error, and a non-empty bearer
token takes precedence, leaving username and password empty; only with an
empty bearer token are `KubeUser`/`KubePassword` copied over. -/
theorem C10_build_rest_config :
    ∀ c : KubeconfigBuilder, ∃ cfg : RestConfig,
      c.BuildRestConfig = .ok cfg ∧
      cfg.Host = "https://" ++ c.KubeMasterIP ∧
      (c.KubeBearerToken ≠ "" →
        cfg.BearerToken = c.KubeBearerToken ∧ cfg.Username = "" ∧ cfg.Password = "") ∧
      (c.KubeBearerToken = "" →
        cfg.BearerToken = "" ∧ cfg.Username = c.KubeUser ∧
        cfg.Password = c.KubePassword) := by
  intro c
  by_cases h : c.KubeBearerToken = ""
  · refine ⟨RestConfig.mk ("https://" ++ c.KubeMasterIP) c.CACert c.ClientCert
        c.ClientKey "" c.KubeUser c.KubePassword, ?_, rfl,
      fun hc => absurd h hc, fun _ => ⟨rfl, rfl, rfl⟩⟩
    simp [KubeconfigBuilder.BuildRestConfig, h]
  · refine ⟨RestConfig.mk ("https://" ++ c.KubeMasterIP) c.CACert c.ClientCert
        c.ClientKey c.KubeBearerToken "" "", ?_, rfl,
      fun _ => ⟨rfl, rfl, rfl⟩, fun hc => absurd hc h⟩
    simp [KubeconfigBuilder.BuildRestConfig, h]

/-- Witness for C10 at a builder carrying both a bearer token and basic
credentials: the token wins and the error is nil. -/
theorem C10_build_rest_config_witness :
    ∃ cfg : RestConfig,
      (KubeconfigBuilder.mk "10.0.0.1" "tok" "admin" "pw" none none none).BuildRestConfig
        = .ok cfg ∧
      cfg.Host = "https://" ++ "10.0.0.1" ∧
      ("tok" ≠ "" →
        cfg.BearerToken = "tok" ∧ cfg.Username = "" ∧ cfg.Password = "") ∧
      ("tok" = "" →
        cfg.BearerToken = "" ∧ cfg.Username = "admin" ∧ cfg.Password = "pw") :=
  C10_build_rest_config (KubeconfigBuilder.mk "10.0.0.1" "tok" "admin" "pw" none none none)

/-- C3: a task that fails transiently exactly `K` times and then succeeds
completes successfully (after `K + 1` passes) when `K` is below the
no-progress budget; when `K` is at least the budget — and, being alone in
the collection, no other task's completion can reset the counter — the run
fails with a stagnation error naming it. -/
theorem C3_transient_budget :
    ∀ (nm : String) (K B : Nat), 1 ≤ B →
      (K < B →
        (RunTasks [transientTask nm K] B).outcome =
          Outcome.success (K + 1) [nm]) ∧
      (B ≤ K →
        (RunTasks [transientTask nm K] B).outcome =
          Outcome.stagnation [nm]) := by
  intro nm K B hB
  have hcyc := cyclicTasks_transientTask nm K
  constructor
  · intro hKB
    unfold RunTasks
    rw [if_pos hcyc]
    exact runLoop_transient_success nm K B K 0
      (initialFuel [transientTask nm K] B) B [] rfl (by omega) rfl
      (by simp [initialFuel]; omega) (by omega)
  · intro hBK
    unfold RunTasks
    rw [if_pos hcyc]
    exact runLoop_transient_stagnation nm K B B 0
      (initialFuel [transientTask nm K] B) [] hB (by omega) rfl
      (by simp [initialFuel]; omega)

/-- Witness for C3 with a task failing transiently twice under budget 5:
it completes at pass 3; the stagnation implication is vacuous here. -/
theorem C3_transient_budget_witness :
    (1 ≤ 5) ∧
    ((2 < 5 → (RunTasks [transientTask "T" 2] 5).outcome =
        Outcome.success (2 + 1) ["T"]) ∧
      (5 ≤ 2 → (RunTasks [transientTask "T" 2] 5).outcome =
        Outcome.stagnation ["T"])) :=
  ⟨by decide, C3_transient_budget "T" 2 5 (by decide)⟩

theorem stepDeps_subset_names (tasks : List Task) (a b : String)
    (h : b ∈ stepDeps tasks a) : b ∈ taskNames tasks := by
  unfold stepDeps at h
  cases hf : List.find? (fun t => t.name == a) tasks with
  | none => rw [hf] at h; simp at h
  | some t =>
    rw [hf] at h
    unfold effDeps at h
    have hp := List.of_mem_filter h
    simpa using hp

theorem edge_source_mem_names (tasks : List Task) (a b : String)
    (h : Edge tasks a b) : a ∈ taskNames tasks := by
  unfold Edge stepDeps at h
  cases hf : List.find? (fun t => t.name == a) tasks with
  | none => rw [hf] at h; simp at h
  | some t =>
    have ht := List.mem_of_find?_eq_some hf
    have hname : t.name = a := by simpa using List.find?_some hf
    exact hname ▸ List.mem_map_of_mem Task.name ht

theorem subset_expandOnce (tasks : List Task) (s : Finset String) :
    s ⊆ expandOnce tasks s := by
  intro x hx
  rw [expandOnce, Finset.mem_union]
  exact Or.inl hx

theorem expandOnce_subset_univ (tasks : List Task) (s : Finset String)
    (h : s ⊆ (taskNames tasks).toFinset) :
    expandOnce tasks s ⊆ (taskNames tasks).toFinset := by
  intro x hx
  rw [expandOnce, Finset.mem_union] at hx
  rcases hx with hx | hx
  · exact h hx
  · obtain ⟨d, _, hxd⟩ := Finset.mem_biUnion.1 hx
    exact List.mem_toFinset.2
      (stepDeps_subset_names tasks d x (List.mem_toFinset.1 hxd))

theorem saturate_stable (tasks : List Task) :
    ∀ (f : Nat) (s : Finset String), expandOnce tasks s = s →
      saturate tasks f s = s := by
  intro f
  induction f with
  | zero => intro s _; rfl
  | succ f ih =>
    intro s h
    rw [saturate, h]
    exact ih s h

theorem subset_saturate (tasks : List Task) :
    ∀ (f : Nat) (s : Finset String), s ⊆ saturate tasks f s := by
  intro f
  induction f with
  | zero => intro s; exact Finset.Subset.refl s
  | succ f ih =>
    intro s
    rw [saturate]
    exact (subset_expandOnce tasks s).trans (ih (expandOnce tasks s))

theorem saturate_fixed (tasks : List Task) :
    ∀ (f : Nat) (s : Finset String), s ⊆ (taskNames tasks).toFinset →
      (taskNames tasks).toFinset.card ≤ s.card + f →
      expandOnce tasks (saturate tasks f s) = saturate tasks f s := by
  intro f
  induction f with
  | zero =>
    intro s hsub hcard
    have hs : s = (taskNames tasks).toFinset :=
      Finset.eq_of_subset_of_card_le hsub (by omega)
    show expandOnce tasks s = s
    refine Finset.Subset.antisymm ?_ (subset_expandOnce tasks s)
    rw [hs] at *
    exact expandOnce_subset_univ tasks _ (Finset.Subset.refl _)
  | succ f ih =>
    intro s hsub hcard
    by_cases he : expandOnce tasks s = s
    · rw [saturate, he, saturate_stable tasks f s he]
      exact he
    · have hss : s ⊂ expandOnce tasks s :=
        Finset.ssubset_iff_subset_ne.2 ⟨subset_expandOnce tasks s, fun h => he h.symm⟩
      have hlt : s.card < (expandOnce tasks s).card := Finset.card_lt_card hss
      rw [saturate]
      exact ih (expandOnce tasks s) (expandOnce_subset_univ tasks s hsub) (by omega)

theorem saturate_sound (tasks : List Task) :
    ∀ (f : Nat) (s : Finset String) (b : String), b ∈ saturate tasks f s →
      ∃ c ∈ s, Relation.ReflTransGen (Edge tasks) c b := by
  intro f
  induction f with
  | zero =>
    intro s b hb
    exact ⟨b, hb, Relation.ReflTransGen.refl⟩
  | succ f ih =>
    intro s b hb
    rw [saturate] at hb
    obtain ⟨c, hc, hcb⟩ := ih (expandOnce tasks s) b hb
    rw [expandOnce, Finset.mem_union] at hc
    rcases hc with hc | hc
    · exact ⟨c, hc, hcb⟩
    · obtain ⟨d, hd, hcd⟩ := Finset.mem_biUnion.1 hc
      exact ⟨d, hd, Relation.ReflTransGen.head (List.mem_toFinset.1 hcd) hcb⟩

theorem closed_reach_mem (tasks : List Task) (S : Finset String)
    (hS : expandOnce tasks S = S) (c b : String) (hc : c ∈ S)
    (hcb : Relation.ReflTransGen (Edge tasks) c b) : b ∈ S := by
  induction hcb with
  | refl => exact hc
  | @tail y z _ hyz ih =>
    have hmem : z ∈ expandOnce tasks S := by
      rw [expandOnce, Finset.mem_union]
      exact Or.inr (Finset.mem_biUnion.2 ⟨y, ih, List.mem_toFinset.2 hyz⟩)
    rwa [hS] at hmem

theorem stepDeps_toFinset_subset (tasks : List Task) (a : String) :
    (stepDeps tasks a).toFinset ⊆ (taskNames tasks).toFinset := by
  intro x hx
  exact List.mem_toFinset.2 (stepDeps_subset_names tasks a x (List.mem_toFinset.1 hx))

theorem expandOnce_closureFrom (tasks : List Task) (a : String) :
    expandOnce tasks (closureFrom tasks a) = closureFrom tasks a := by
  unfold closureFrom
  exact saturate_fixed tasks _ _ (stepDeps_toFinset_subset tasks a) (by omega)

theorem mem_closureFrom_of_transGen (tasks : List Task) (a b : String)
    (h : Relation.TransGen (Edge tasks) a b) : b ∈ closureFrom tasks a := by
  obtain ⟨c, hac, hcb⟩ := Relation.TransGen.head'_iff.1 h
  have hc0 : c ∈ closureFrom tasks a := by
    unfold closureFrom
    exact subset_saturate tasks _ _ (List.mem_toFinset.2 hac)
  exact closed_reach_mem tasks _ (expandOnce_closureFrom tasks a) c b hc0 hcb

theorem transGen_of_mem_closureFrom (tasks : List Task) (a b : String)
    (h : b ∈ closureFrom tasks a) : Relation.TransGen (Edge tasks) a b := by
  unfold closureFrom at h
  obtain ⟨c, hc, hcb⟩ := saturate_sound tasks _ _ b h
  exact Relation.TransGen.head'_iff.2 ⟨c, List.mem_toFinset.1 hc, hcb⟩

/-- C2: a collection containing a dependency cycle makes the run fail with
a configuration error whose reported names are nonempty and all lie on
cycles, and the trace stays empty: no task is ever attempted. -/
theorem C2_cycle_config_error :
    ∀ (tasks : List Task) (B : Nat) (a : String),
      Relation.TransGen (Edge tasks) a a →
      ∃ cyc, RunTasks tasks B = ⟨Outcome.configError cyc, []⟩ ∧ cyc ≠ [] ∧
        ∀ n ∈ cyc, Relation.TransGen (Edge tasks) n n := by
  intro tasks B a hcyc
  have hedge : ∃ c, Edge tasks a c ∧ Relation.ReflTransGen (Edge tasks) c a :=
    Relation.TransGen.head'_iff.1 hcyc
  obtain ⟨c, hac, _⟩ := hedge
  have haname : a ∈ taskNames tasks := edge_source_mem_names tasks a c hac
  obtain ⟨t, ht, htname⟩ := List.mem_map.1 haname
  have htcyc : selfCyclic tasks t.name = true := by
    unfold selfCyclic
    rw [htname]
    exact decide_eq_true (mem_closureFrom_of_transGen tasks a a hcyc)
  have htmem : t ∈ cyclicTasks tasks := List.mem_filter.2 ⟨ht, htcyc⟩
  have hne : cyclicTasks tasks ≠ [] := List.ne_nil_of_mem htmem
  have hie : (cyclicTasks tasks).isEmpty = false := by
    cases hcy : cyclicTasks tasks with
    | nil => exact absurd hcy hne
    | cons u l => rfl
  refine ⟨taskNames (cyclicTasks tasks), ?_, ?_, ?_⟩
  · rw [RunTasks, if_neg (by simp [hie])]
  · intro hmap
    exact hne (List.map_eq_nil_iff.1 hmap)
  · intro n hn
    obtain ⟨u, hu, huname⟩ := List.mem_map.1 hn
    have hus : selfCyclic tasks u.name = true := (List.mem_filter.1 hu).2
    have humem : u.name ∈ closureFrom tasks u.name := of_decide_eq_true hus
    exact huname ▸ transGen_of_mem_closureFrom tasks u.name u.name humem

/-- Witness for C2 at the spec's X-Y cycle scenario: the run reports a
configuration error on a nonempty set of cyclic tasks without attempting
anything. -/
theorem C2_cycle_config_error_witness :
    ∃ cyc, RunTasks exCycleTasks 5 = ⟨Outcome.configError cyc, []⟩ ∧
      cyc ≠ [] ∧ ∀ n ∈ cyc, Relation.TransGen (Edge exCycleTasks) n n :=
  C2_cycle_config_error exCycleTasks 5 "X"
    (Relation.TransGen.head (b := "Y") (by unfold Edge; decide)
      (Relation.TransGen.single (by unfold Edge; decide)))

theorem readyB_eq_true (names done : List String) (t : Task) :
    readyB names done t = true ↔
      (t.name ∉ done ∧ ∀ d ∈ effDeps names t, d ∈ done) := by
  rw [readyB, Bool.and_eq_true, decide_eq_true_eq, decide_eq_true_eq]

theorem runPass_allSuccess (names : List String) (trace : List Event)
    (p : Nat) :
    ∀ (ts : List Task) (done : List String),
      (∀ t ∈ ts, ∀ k, t.behavior k = RunResult.success) →
      ∃ evs, runPass names trace p done ts =
        PassOut.ok ((ts.filter (readyB names done)).map Task.name) evs := by
  intro ts
  induction ts with
  | nil => intro done _; exact ⟨[], rfl⟩
  | cons t rest ih =>
    intro done hall
    have hrest : ∀ u ∈ rest, ∀ k, u.behavior k = RunResult.success :=
      fun u hu => hall u (List.mem_cons_of_mem t hu)
    obtain ⟨evs, hevs⟩ := ih done hrest
    by_cases hin : t.name ∈ done
    · have hready : readyB names done t = false :=
        Bool.eq_false_iff.2 (fun hr => ((readyB_eq_true names done t).1 hr).1 hin)
      have hfilter : (t :: rest).filter (readyB names done) =
          rest.filter (readyB names done) := by
        simp [List.filter_cons, hready]
      rw [hfilter]
      refine ⟨evs, ?_⟩
      rw [runPass, if_pos hin]
      exact hevs
    · by_cases hdep : ∀ d ∈ effDeps names t, d ∈ done
      · have hbeh := hall t (List.mem_cons_self t rest) (attemptsOf trace t.name)
        have hready : readyB names done t = true :=
          (readyB_eq_true names done t).2 ⟨hin, hdep⟩
        have hfilter : (t :: rest).filter (readyB names done) =
            t :: rest.filter (readyB names done) := by
          simp [List.filter_cons, hready]
        rw [hfilter]
        refine ⟨⟨p, t.name, .success⟩ :: evs, ?_⟩
        rw [runPass, if_neg hin, if_pos hdep, hbeh, hevs]
        rfl
      · have hready : readyB names done t = false :=
          Bool.eq_false_iff.2 (fun hr => hdep ((readyB_eq_true names done t).1 hr).2)
        have hfilter : (t :: rest).filter (readyB names done) =
            rest.filter (readyB names done) := by
          simp [List.filter_cons, hready]
        rw [hfilter]
        refine ⟨evs, ?_⟩
        rw [runPass, if_neg hin, if_neg hdep]
        exact hevs

theorem subset_passFun (tasks : List Task) (names done : List String) :
    done ⊆ passFun tasks names done :=
  fun _ ha => List.mem_append.2 (Or.inl ha)

theorem mem_passFun_of_ready (tasks : List Task) (names done : List String)
    (t : Task) (ht : t ∈ tasks)
    (hdep : ∀ d ∈ effDeps names t, d ∈ done) :
    t.name ∈ passFun tasks names done := by
  by_cases hin : t.name ∈ done
  · exact List.mem_append.2 (Or.inl hin)
  · refine List.mem_append.2 (Or.inr ?_)
    exact List.mem_map_of_mem Task.name
      (List.mem_filter.2 ⟨ht, (readyB_eq_true names done t).2 ⟨hin, hdep⟩⟩)

theorem passIter_comp (tasks : List Task) (names done : List String) :
    ∀ (m k : Nat), passIter tasks names done (k + m) =
      passIter tasks names (passIter tasks names done k) m := by
  intro m
  induction m with
  | zero => intro k; rfl
  | succ m ih =>
    intro k
    show passFun tasks names (passIter tasks names done (k + m)) = _
    rw [ih k]
    rfl

theorem passIter_stable (tasks : List Task) (names done : List String)
    (h : passFun tasks names done = done) :
    ∀ m, passIter tasks names done m = done := by
  intro m
  induction m with
  | zero => rfl
  | succ m ih =>
    show passFun tasks names (passIter tasks names done m) = done
    rw [ih, h]

theorem passIter_succ_subset (tasks : List Task) (names done : List String)
    (m : Nat) :
    passIter tasks names done m ⊆ passIter tasks names done (m + 1) :=
  subset_passFun tasks names (passIter tasks names done m)

theorem passIter_mono (tasks : List Task) (names done : List String)
    {m m' : Nat} (h : m ≤ m') :
    passIter tasks names done m ⊆ passIter tasks names done m' := by
  induction h with
  | refl => exact fun a ha => ha
  | step _ ih =>
    exact fun a ha => passIter_succ_subset tasks names done _ (ih ha)

theorem passFun_subset_names (tasks : List Task) (names done : List String)
    (h : done ⊆ taskNames tasks) :
    passFun tasks names done ⊆ taskNames tasks := by
  intro a ha
  rcases List.mem_append.1 ha with ha | ha
  · exact h ha
  · obtain ⟨t, htf, htn⟩ := List.mem_map.1 ha
    exact htn ▸ List.mem_map_of_mem Task.name (List.mem_of_mem_filter htf)

theorem passIter_subset_names (tasks : List Task) (names done : List String)
    (h : done ⊆ taskNames tasks) :
    ∀ m, passIter tasks names done m ⊆ taskNames tasks := by
  intro m
  induction m with
  | zero => exact h
  | succ m ih => exact passFun_subset_names tasks names _ ih

theorem passFun_nodup (tasks : List Task) (names done : List String)
    (hn : (taskNames tasks).Nodup) (hd : done.Nodup) :
    (passFun tasks names done).Nodup := by
  rw [passFun]
  refine List.Nodup.append hd ?_ ?_
  · have hsub : ((tasks.filter (readyB names done)).map Task.name).Sublist
        (taskNames tasks) :=
      (List.filter_sublist tasks).map Task.name
    exact hn.sublist hsub
  · intro a ha hamem
    obtain ⟨t, htf, htn⟩ := List.mem_map.1 hamem
    have hready := (List.mem_filter.1 htf).2
    rw [readyB, Bool.and_eq_true, decide_eq_true_eq] at hready
    exact hready.1 (htn ▸ ha)

theorem passIter_nodup (tasks : List Task) (names done : List String)
    (hn : (taskNames tasks).Nodup) (hd : done.Nodup) :
    ∀ m, (passIter tasks names done m).Nodup := by
  intro m
  induction m with
  | zero => exact hd
  | succ m ih => exact passFun_nodup tasks names _ hn ih

theorem passFun_length_grow (tasks : List Task) (names done : List String)
    (h : passFun tasks names done ≠ done) :
    done.length + 1 ≤ (passFun tasks names done).length := by
  rw [passFun] at h ⊢
  cases hx : (tasks.filter (readyB names done)).map Task.name with
  | nil => rw [hx] at h; simp at h
  | cons y ys =>
    simp only [List.length_append, List.length_cons]
    omega

theorem find?_name_eq_self (tasks : List Task)
    (hn : (taskNames tasks).Nodup) (t : Task) (ht : t ∈ tasks) :
    tasks.find? (fun u => u.name == t.name) = some t := by
  induction tasks with
  | nil => exact absurd ht (List.not_mem_nil t)
  | cons u rest ih =>
    simp only [taskNames, List.map_cons, List.nodup_cons] at hn
    rcases List.mem_cons.1 ht with rfl | ht'
    · exact List.find?_cons_of_pos rest (by simp)
    · have hne : (u.name == t.name) = false := by
        refine beq_eq_false_iff_ne.2 ?_
        intro h
        exact hn.1 (h ▸ List.mem_map_of_mem Task.name ht')
      rw [List.find?_cons_of_neg rest (by simp [hne])]
      exact ih hn.2 ht'

theorem stepDeps_eq_effDeps (tasks : List Task)
    (hn : (taskNames tasks).Nodup) (t : Task) (ht : t ∈ tasks) :
    stepDeps tasks t.name = effDeps (taskNames tasks) t := by
  unfold stepDeps
  rw [find?_name_eq_self tasks hn t ht]

theorem chain_snoc (tasks : List Task) :
    ∀ (xs : List String) (m c : String), IsChain tasks xs →
      xs.getLast? = some m → c ∈ stepDeps tasks m → c ∈ taskNames tasks →
      IsChain tasks (xs ++ [c]) := by
  intro xs m c hch
  induction hch with
  | single a ha =>
    intro hlast hedge hc
    have haa : a = m := by simpa using hlast
    subst haa
    exact IsChain.cons a c [] hedge (IsChain.single c hc)
  | cons a b l hd _ ih =>
    intro hlast hedge hc
    have hlast' : (b :: l).getLast? = some m := by
      rwa [List.getLast?_cons_cons] at hlast
    exact IsChain.cons a b (l ++ [c]) hd (ih hlast' hedge hc)

theorem chain_glue (tasks : List Task) :
    ∀ (xs : List String) (m : String) (ys : List String),
      IsChain tasks (xs ++ [m]) → IsChain tasks (m :: ys) →
      IsChain tasks (xs ++ m :: ys) := by
  intro xs
  induction xs with
  | nil => intro m ys _ h2; exact h2
  | cons x xs ih =>
    intro m ys h1 h2
    cases xs with
    | nil =>
      cases h1 with
      | cons _ _ _ hedge _ => exact IsChain.cons x m ys hedge h2
    | cons x2 xs2 =>
      rw [List.cons_append, List.cons_append] at h1
      cases h1 with
      | cons _ _ _ hedge htail =>
        exact IsChain.cons x x2 (xs2 ++ m :: ys) hedge (ih m ys htail h2)

theorem transGen_chain (tasks : List Task) (a b : String)
    (h : Relation.TransGen (Edge tasks) a b) :
    ∃ l, IsChain tasks (a :: l) ∧ l ≠ [] ∧ (a :: l).getLast? = some b := by
  induction h with
  | @single c hac =>
    exact ⟨[c], IsChain.cons a c [] hac
      (IsChain.single c (stepDeps_subset_names tasks a c hac)), by simp, rfl⟩
  | @tail m c _ hmc ih =>
    obtain ⟨l, hch, hne, hlast⟩ := ih
    refine ⟨l ++ [c], ?_, by simp, ?_⟩
    · exact chain_snoc tasks (a :: l) m c hch hlast hmc
        (stepDeps_subset_names tasks m c hmc)
    · exact List.getLast?_concat (a :: l)

theorem chain_pump (tasks : List Task) (a : String) (l : List String)
    (hch : IsChain tasks (a :: l)) (hlast : (a :: l).getLast? = some a)
    (hne : l ≠ []) :
    ∀ j, ∃ lj, IsChain tasks (a :: lj) ∧ j ≤ lj.length ∧
      (a :: lj).getLast? = some a ∧ lj ≠ [] := by
  intro j
  induction j with
  | zero => exact ⟨l, hch, Nat.zero_le _, hlast, hne⟩
  | succ j ih =>
    obtain ⟨lj, hchj, hlenj, hlastj, hnej⟩ := ih
    obtain ⟨xs, hxs⟩ := List.getLast?_eq_some_iff.1 hlastj
    cases xs with
    | nil =>
      exfalso
      have : lj = [] := by simpa using hxs
      exact hnej this
    | cons x xs' =>
      rw [List.cons_append, List.cons.injEq] at hxs
      obtain ⟨hxa, hlj⟩ := hxs
      subst hxa
      have hglue : IsChain tasks ((a :: xs') ++ (a :: l)) :=
        chain_glue tasks (a :: xs') a l (by rw [hlj] at hchj; exact hchj) hch
      refine ⟨xs' ++ a :: l, hglue, ?_, ?_, by simp⟩
      · have h1 : lj.length = xs'.length + 1 := by rw [hlj]; simp
        have h2 : 1 ≤ l.length := List.length_pos.2 hne
        simp only [List.length_append, List.length_cons]
        omega
      · show (a :: (xs' ++ a :: l)).getLast? = some a
        rw [show a :: (xs' ++ a :: l) = (a :: xs') ++ (a :: l) from by simp]
        rw [List.getLast?_append, hlast]
        rfl

theorem no_cycle_of_chain_bound (tasks : List Task) (L : Nat)
    (hbound : ∀ l, IsChain tasks l → l.length ≤ L) :
    ∀ a, ¬ Relation.TransGen (Edge tasks) a a := by
  intro a hcyc
  obtain ⟨l, hch, hne, hlast⟩ := transGen_chain tasks a a hcyc
  obtain ⟨lL, hchL, hlenL, _, _⟩ := chain_pump tasks a l hch hlast hne L
  have := hbound (a :: lL) hchL
  simp only [List.length_cons] at this
  omega

theorem cyclicTasks_isEmpty_of_acyclic (tasks : List Task)
    (h : ∀ a, ¬ Relation.TransGen (Edge tasks) a a) :
    (cyclicTasks tasks).isEmpty = true := by
  have hnil : cyclicTasks tasks = [] := by
    rw [cyclicTasks, List.filter_eq_nil_iff]
    intro t _ hs
    have hmem : t.name ∈ closureFrom tasks t.name := of_decide_eq_true hs
    exact h t.name (transGen_of_mem_closureFrom tasks t.name t.name hmem)
  rw [hnil]
  rfl

theorem chain_bound_done (tasks : List Task)
    (hn : (taskNames tasks).Nodup) :
    ∀ (p : Nat) (a : String), a ∈ taskNames tasks →
      (∀ l, IsChain tasks (a :: l) → l.length + 1 ≤ p + 1) →
      a ∈ passIter tasks (taskNames tasks) [] (p + 1) := by
  intro p
  induction p with
  | zero =>
    intro a ha hbound
    obtain ⟨t, ht, rfl⟩ : ∃ t ∈ tasks, t.name = a := by
      obtain ⟨t, ht, htn⟩ := List.mem_map.1 ha
      exact ⟨t, ht, htn⟩
    show t.name ∈ passFun tasks (taskNames tasks)
      (passIter tasks (taskNames tasks) [] 0)
    refine mem_passFun_of_ready tasks _ _ t ht ?_
    intro d hd
    exfalso
    have hd' : d ∈ stepDeps tasks t.name := by
      rw [stepDeps_eq_effDeps tasks hn t ht]; exact hd
    have hdname : d ∈ taskNames tasks := stepDeps_subset_names tasks t.name d hd'
    have hchain : IsChain tasks (t.name :: [d]) :=
      IsChain.cons t.name d [] hd' (IsChain.single d hdname)
    have hlen := hbound [d] hchain
    simp at hlen
  | succ q ih =>
    intro a ha hbound
    obtain ⟨t, ht, rfl⟩ : ∃ t ∈ tasks, t.name = a := by
      obtain ⟨t, ht, htn⟩ := List.mem_map.1 ha
      exact ⟨t, ht, htn⟩
    show t.name ∈ passFun tasks (taskNames tasks)
      (passIter tasks (taskNames tasks) [] (q + 1))
    refine mem_passFun_of_ready tasks _ _ t ht ?_
    intro d hd
    have hd' : d ∈ stepDeps tasks t.name := by
      rw [stepDeps_eq_effDeps tasks hn t ht]; exact hd
    have hdname : d ∈ taskNames tasks := stepDeps_subset_names tasks t.name d hd'
    refine ih d hdname ?_
    intro l hl
    have hchain : IsChain tasks (t.name :: d :: l) := IsChain.cons t.name d l hd' hl
    have hlen := hbound (d :: l) hchain
    simp only [List.length_cons] at hlen ⊢
    omega

theorem names_covered_bound (tasks : List Task) (L : Nat)
    (hn : (taskNames tasks).Nodup)
    (hbound : ∀ l, IsChain tasks l → l.length ≤ L) :
    ∀ a ∈ taskNames tasks, a ∈ passIter tasks (taskNames tasks) [] L := by
  intro a ha
  have hL1 : 1 ≤ L := by
    have := hbound [a] (IsChain.single a ha)
    simpa using this
  obtain ⟨p, rfl⟩ : ∃ p, L = p + 1 := ⟨L - 1, by omega⟩
  refine chain_bound_done tasks hn p a ha ?_
  intro l hl
  have := hbound (a :: l) hl
  simp only [List.length_cons] at this
  omega

theorem passIter_length_ge (tasks : List Task) (names : List String) :
    ∀ (m : Nat),
      (∀ j, j < m → passFun tasks names (passIter tasks names [] j) ≠
        passIter tasks names [] j) →
      m ≤ (passIter tasks names [] m).length := by
  intro m
  induction m with
  | zero => intro _; exact Nat.zero_le _
  | succ m ih =>
    intro h
    have h1 := ih (fun j hj => h j (by omega))
    have h2 := h m (by omega)
    have h3 := passFun_length_grow tasks names (passIter tasks names [] m) h2
    show m + 1 ≤ (passFun tasks names (passIter tasks names [] m)).length
    omega

theorem names_covered_min (tasks : List Task) (L : Nat)
    (hn : (taskNames tasks).Nodup)
    (hbound : ∀ l, IsChain tasks l → l.length ≤ L) :
    ∀ a ∈ taskNames tasks,
      a ∈ passIter tasks (taskNames tasks) []
        (min L (taskNames tasks).length) := by
  intro a ha
  by_cases hLn : L ≤ (taskNames tasks).length
  · have hmin : min L (taskNames tasks).length = L := by omega
    rw [hmin]
    exact names_covered_bound tasks L hn hbound a ha
  · have hmin : min L (taskNames tasks).length = (taskNames tasks).length := by
      omega
    rw [hmin]
    by_cases hstab : ∃ j, j < (taskNames tasks).length ∧
        passFun tasks (taskNames tasks)
          (passIter tasks (taskNames tasks) [] j) =
        passIter tasks (taskNames tasks) [] j
    · obtain ⟨j, hj, hfix⟩ := hstab
      have hstable : ∀ k, passIter tasks (taskNames tasks) [] (j + k) =
          passIter tasks (taskNames tasks) [] j := by
        intro k
        rw [passIter_comp]
        exact passIter_stable tasks (taskNames tasks) _ hfix k
      have hcov : a ∈ passIter tasks (taskNames tasks) [] L :=
        names_covered_bound tasks L hn hbound a ha
      have hLj : L = j + (L - j) := by omega
      rw [hLj, hstable (L - j)] at hcov
      exact passIter_mono tasks (taskNames tasks) [] (by omega) hcov
    · push_neg at hstab
      have hlen : (taskNames tasks).length ≤
          (passIter tasks (taskNames tasks) [] (taskNames tasks).length).length :=
        passIter_length_ge tasks (taskNames tasks) (taskNames tasks).length hstab
      have hsubn : passIter tasks (taskNames tasks) [] (taskNames tasks).length ⊆
          taskNames tasks :=
        passIter_subset_names tasks (taskNames tasks) []
          (fun x hx => absurd hx (List.not_mem_nil x)) (taskNames tasks).length
      have hnd : (passIter tasks (taskNames tasks) []
          (taskNames tasks).length).Nodup :=
        passIter_nodup tasks (taskNames tasks) [] hn List.nodup_nil
          (taskNames tasks).length
      have hsp := List.subperm_of_subset hnd hsubn
      have hperm := hsp.perm_of_length_le hlen
      exact hperm.symm.subset ha

theorem runLoop_allSuccess (tasks : List Task) (names : List String)
    (maxB : Nat) (hmaxB : 1 ≤ maxB)
    (hall : ∀ t ∈ tasks, ∀ k, t.behavior k = RunResult.success) :
    ∀ (m fuel budget passNo : Nat) (done : List String) (trace : List Event),
      (∀ a ∈ names, a ∈ passIter tasks names done m) → m < fuel → 1 ≤ budget →
      ∃ k, k ≤ m ∧ ∃ (doneF : List String) (trF : List Event),
        runLoop tasks names maxB fuel budget passNo done trace =
          ⟨Outcome.success (passNo + k) doneF, trF⟩ ∧
        ∀ a ∈ names, a ∈ doneF := by
  intro m
  induction m with
  | zero =>
    intro fuel budget passNo done trace hcov hfuel _
    obtain ⟨f, rfl⟩ : ∃ f, fuel = f + 1 := ⟨fuel - 1, by omega⟩
    have hcov' : ∀ a ∈ names, a ∈ done := hcov
    rw [runLoop, if_pos hcov']
    exact ⟨0, Nat.le_refl 0, done, trace, rfl, hcov'⟩
  | succ m ih =>
    intro fuel budget passNo done trace hcov hfuel hbudget
    obtain ⟨f, rfl⟩ : ∃ f, fuel = f + 1 := ⟨fuel - 1, by omega⟩
    by_cases hdone : ∀ a ∈ names, a ∈ done
    · rw [runLoop, if_pos hdone]
      exact ⟨0, by omega, done, trace, rfl, hdone⟩
    · obtain ⟨evs, hevs⟩ := runPass_allSuccess names trace (passNo + 1) tasks done hall
      rw [runLoop, if_neg hdone, hevs]
      simp only
      by_cases hnew : (tasks.filter (readyB names done)).map Task.name = []
      · exfalso
        have hfix : passFun tasks names done = done := by
          rw [passFun, hnew]
          simp
        have hstable : passIter tasks names done (m + 1) = done :=
          passIter_stable tasks names done hfix (m + 1)
        exact hdone (fun a ha => hstable ▸ hcov a ha)
      · rw [if_neg hnew]
        have hcomp : ∀ a ∈ names,
            a ∈ passIter tasks names
              (done ++ (tasks.filter (readyB names done)).map Task.name) m := by
          intro a ha
          have hmem := hcov a ha
          rw [show m + 1 = 1 + m from by omega, passIter_comp] at hmem
          exact hmem
        obtain ⟨k, hk, doneF, trF, heq, hsub⟩ :=
          ih f maxB (passNo + 1) (done ++ (tasks.filter (readyB names done)).map Task.name)
            (trace ++ evs) hcomp (by omega) hmaxB
        refine ⟨k + 1, by omega, doneF, trF, ?_, hsub⟩
        have harith : passNo + (k + 1) = (passNo + 1) + k := by omega
        rw [harith]
        exact heq

/-- C1: for a collection with unique names, all-success behaviours and a
positive budget, in which every dependency chain has at most `L` tasks,
the run loop terminates successfully with every task Done in at most `L`
passes. -/
theorem C1_acyclic_run_terminates :
    ∀ (tasks : List Task) (B L : Nat),
      (taskNames tasks).Nodup →
      (∀ t ∈ tasks, ∀ k, t.behavior k = RunResult.success) →
      1 ≤ B →
      (∀ l, IsChain tasks l → l.length ≤ L) →
      ∃ (p : Nat) (done : List String),
        (RunTasks tasks B).outcome = Outcome.success p done ∧ p ≤ L ∧
        ∀ a ∈ taskNames tasks, a ∈ done := by
  intro tasks B L hn hall hB hbound
  have hacyc : ∀ a, ¬ Relation.TransGen (Edge tasks) a a :=
    no_cycle_of_chain_bound tasks L hbound
  have hie : (cyclicTasks tasks).isEmpty = true :=
    cyclicTasks_isEmpty_of_acyclic tasks hacyc
  have hfuel : min L (taskNames tasks).length < initialFuel tasks B := by
    have h1 : tasks.length + 1 ≤ (tasks.length + 1) * (B + 1) := by
      calc tasks.length + 1 = (tasks.length + 1) * 1 := by rw [Nat.mul_one]
        _ ≤ (tasks.length + 1) * (B + 1) := Nat.mul_le_mul_left _ (by omega)
    have h2 : min L (taskNames tasks).length ≤ (taskNames tasks).length :=
      Nat.min_le_right _ _
    have hlen : (taskNames tasks).length = tasks.length := List.length_map _ _
    rw [initialFuel]
    omega
  obtain ⟨k, hk, doneF, trF, heq, hsub⟩ :=
    runLoop_allSuccess tasks (taskNames tasks) B hB hall
      (min L (taskNames tasks).length) (initialFuel tasks B) B 0 [] []
      (names_covered_min tasks L hn hbound) hfuel hB
  refine ⟨k, doneF, ?_, ?_, hsub⟩
  · rw [RunTasks, if_pos hie, heq]
    simp
  · have := Nat.min_le_left L (taskNames tasks).length
    omega


theorem exChain_stepDeps (a b : String) (h : b ∈ stepDeps exChainTasks a) :
    b = "A" ∧ (a = "B" ∨ a = "C") := by
  unfold stepDeps at h
  cases hf : List.find? (fun t => t.name == a) exChainTasks with
  | none => rw [hf] at h; simp at h
  | some t =>
    rw [hf] at h
    have ht := List.mem_of_find?_eq_some hf
    have hname : t.name = a := by simpa using List.find?_some hf
    simp only [exChainTasks, List.mem_cons, List.not_mem_nil, or_false] at ht
    rcases ht with rfl | rfl | rfl
    · simp [effDeps] at h
    · refine ⟨by simpa [effDeps, taskNames, exChainTasks] using h, Or.inl hname.symm⟩
    · refine ⟨by simpa [effDeps, taskNames, exChainTasks] using h, Or.inr hname.symm⟩

theorem exChain_chain_bound : ∀ l, IsChain exChainTasks l → l.length ≤ 2 := by
  intro l hl
  cases hl with
  | single a _ => simp
  | cons a b l2 hd hch =>
    obtain ⟨rfl, _⟩ := exChain_stepDeps a b hd
    cases hch with
    | single _ _ => simp
    | cons _ c l3 hd2 _ =>
      obtain ⟨_, hac⟩ := exChain_stepDeps "A" c hd2
      rcases hac with h | h <;> exact absurd h (by decide)

/-- Witness for C1 at the spec's A/B/C scenario with budget 100: the run
succeeds with every task Done within 2 passes (the longest chain has 2
tasks). -/
theorem C1_acyclic_run_terminates_witness :
    ∃ (p : Nat) (done : List String),
      (RunTasks exChainTasks 100).outcome = Outcome.success p done ∧ p ≤ 2 ∧
      ∀ a ∈ taskNames exChainTasks, a ∈ done :=
  C1_acyclic_run_terminates exChainTasks 100 2 (by decide)
    (by
      intro t ht k
      simp only [exChainTasks, List.mem_cons, List.not_mem_nil, or_false] at ht
      rcases ht with rfl | rfl | rfl <;> rfl)
    (by decide) exChain_chain_bound

theorem mem_successNames (tr : List Event) (d : String) :
    d ∈ successNames tr ↔
      ∃ e ∈ tr, e.name = d ∧ e.result = RunResult.success := by
  unfold successNames
  rw [List.mem_map]
  constructor
  · rintro ⟨e, hef, hname⟩
    have hm := List.mem_filter.1 hef
    exact ⟨e, hm.1, hname, of_decide_eq_true hm.2⟩
  · rintro ⟨e, he, hname, hres⟩
    exact ⟨e, List.mem_filter.2 ⟨he, decide_eq_true hres⟩, hname⟩

theorem successNames_append (a b : List Event) :
    successNames (a ++ b) = successNames a ++ successNames b := by
  simp [successNames, List.filter_append]

theorem runPass_events (names : List String) (trace0 : List Event) (p : Nat) :
    ∀ (ts : List Task) (done : List String) (ev : Event),
      ev ∈ passEvents (runPass names trace0 p done ts) →
      ev.pass = p ∧ ev.name ∉ done ∧
        ∃ t ∈ ts, t.name = ev.name ∧ ∀ d ∈ effDeps names t, d ∈ done := by
  intro ts
  induction ts with
  | nil =>
    intro done ev hev
    simp [runPass, passEvents] at hev
  | cons t rest ih =>
    intro done ev hev
    by_cases hin : t.name ∈ done
    · rw [runPass, if_pos hin] at hev
      obtain ⟨h1, h2, t2, ht2, h3⟩ := ih done ev hev
      exact ⟨h1, h2, t2, List.mem_cons_of_mem t ht2, h3⟩
    · by_cases hdep : ∀ d ∈ effDeps names t, d ∈ done
      · rw [runPass, if_neg hin, if_pos hdep] at hev
        cases hbeh : t.behavior (attemptsOf trace0 t.name) with
        | success =>
          rw [hbeh] at hev
          cases hrec : runPass names trace0 p done rest with
          | ok newly evs =>
            rw [hrec] at hev
            simp only [passEvents, List.mem_cons] at hev
            rcases hev with rfl | hev
            · exact ⟨rfl, hin, t, List.mem_cons_self t rest, rfl, hdep⟩
            · obtain ⟨h1, h2, t2, ht2, h3⟩ := ih done ev (by rw [hrec]; exact hev)
              exact ⟨h1, h2, t2, List.mem_cons_of_mem t ht2, h3⟩
          | aborted f evs =>
            rw [hrec] at hev
            simp only [passEvents, List.mem_cons] at hev
            rcases hev with rfl | hev
            · exact ⟨rfl, hin, t, List.mem_cons_self t rest, rfl, hdep⟩
            · obtain ⟨h1, h2, t2, ht2, h3⟩ := ih done ev (by rw [hrec]; exact hev)
              exact ⟨h1, h2, t2, List.mem_cons_of_mem t ht2, h3⟩
        | transient =>
          rw [hbeh] at hev
          cases hrec : runPass names trace0 p done rest with
          | ok newly evs =>
            rw [hrec] at hev
            simp only [passEvents, List.mem_cons] at hev
            rcases hev with rfl | hev
            · exact ⟨rfl, hin, t, List.mem_cons_self t rest, rfl, hdep⟩
            · obtain ⟨h1, h2, t2, ht2, h3⟩ := ih done ev (by rw [hrec]; exact hev)
              exact ⟨h1, h2, t2, List.mem_cons_of_mem t ht2, h3⟩
          | aborted f evs =>
            rw [hrec] at hev
            simp only [passEvents, List.mem_cons] at hev
            rcases hev with rfl | hev
            · exact ⟨rfl, hin, t, List.mem_cons_self t rest, rfl, hdep⟩
            · obtain ⟨h1, h2, t2, ht2, h3⟩ := ih done ev (by rw [hrec]; exact hev)
              exact ⟨h1, h2, t2, List.mem_cons_of_mem t ht2, h3⟩
        | permanent =>
          rw [hbeh] at hev
          simp only [passEvents, List.mem_cons, List.not_mem_nil, or_false] at hev
          subst hev
          exact ⟨rfl, hin, t, List.mem_cons_self t rest, rfl, hdep⟩
      · rw [runPass, if_neg hin, if_neg hdep] at hev
        obtain ⟨h1, h2, t2, ht2, h3⟩ := ih done ev hev
        exact ⟨h1, h2, t2, List.mem_cons_of_mem t ht2, h3⟩

theorem runPass_events_name_nodup (names : List String) (trace0 : List Event)
    (p : Nat) :
    ∀ (ts : List Task) (done : List String), (ts.map Task.name).Nodup →
      ((passEvents (runPass names trace0 p done ts)).map Event.name).Nodup := by
  intro ts
  induction ts with
  | nil => intro done _; simp [runPass, passEvents]
  | cons t rest ih =>
    intro done hnd
    simp only [List.map_cons, List.nodup_cons] at hnd
    by_cases hin : t.name ∈ done
    · rw [runPass, if_pos hin]
      exact ih done hnd.2
    · by_cases hdep : ∀ d ∈ effDeps names t, d ∈ done
      · have hfresh : ∀ (evs : List Event),
            (∀ ev ∈ evs, ev ∈ passEvents (runPass names trace0 p done rest)) →
            t.name ∉ evs.map Event.name := by
          intro evs hsub hmem
          obtain ⟨ev, hev, hevname⟩ := List.mem_map.1 hmem
          obtain ⟨_, _, t2, ht2, ht2name, _⟩ :=
            runPass_events names trace0 p rest done ev (hsub ev hev)
          have hmem2 : t2.name ∈ rest.map Task.name :=
            List.mem_map_of_mem Task.name ht2
          rw [ht2name, hevname] at hmem2
          exact hnd.1 hmem2
        cases hbeh : t.behavior (attemptsOf trace0 t.name) with
        | success =>
          cases hrec : runPass names trace0 p done rest with
          | ok newly evs =>
            rw [runPass, if_neg hin, if_pos hdep, hbeh, hrec]
            simp only [passEvents, List.map_cons, List.nodup_cons]
            refine ⟨hfresh evs (fun ev hev => by rw [hrec]; exact hev), ?_⟩
            have hr := ih done hnd.2
            rw [hrec] at hr
            exact hr
          | aborted f evs =>
            rw [runPass, if_neg hin, if_pos hdep, hbeh, hrec]
            simp only [passEvents, List.map_cons, List.nodup_cons]
            refine ⟨hfresh evs (fun ev hev => by rw [hrec]; exact hev), ?_⟩
            have hr := ih done hnd.2
            rw [hrec] at hr
            exact hr
        | transient =>
          cases hrec : runPass names trace0 p done rest with
          | ok newly evs =>
            rw [runPass, if_neg hin, if_pos hdep, hbeh, hrec]
            simp only [passEvents, List.map_cons, List.nodup_cons]
            refine ⟨hfresh evs (fun ev hev => by rw [hrec]; exact hev), ?_⟩
            have hr := ih done hnd.2
            rw [hrec] at hr
            exact hr
          | aborted f evs =>
            rw [runPass, if_neg hin, if_pos hdep, hbeh, hrec]
            simp only [passEvents, List.map_cons, List.nodup_cons]
            refine ⟨hfresh evs (fun ev hev => by rw [hrec]; exact hev), ?_⟩
            have hr := ih done hnd.2
            rw [hrec] at hr
            exact hr
        | permanent =>
          rw [runPass, if_neg hin, if_pos hdep, hbeh]
          simp [passEvents]
      · rw [runPass, if_neg hin, if_neg hdep]
        exact ih done hnd.2

theorem runPass_ok_newly (names : List String) (trace0 : List Event)
    (p : Nat) :
    ∀ (ts : List Task) (done newly : List String) (evs : List Event),
      runPass names trace0 p done ts = PassOut.ok newly evs →
      newly = successNames evs := by
  intro ts
  induction ts with
  | nil =>
    intro done newly evs h
    rw [runPass] at h
    cases h
    rfl
  | cons t rest ih =>
    intro done newly evs h
    by_cases hin : t.name ∈ done
    · rw [runPass, if_pos hin] at h
      exact ih done newly evs h
    · by_cases hdep : ∀ d ∈ effDeps names t, d ∈ done
      · cases hbeh : t.behavior (attemptsOf trace0 t.name) with
        | success =>
          rw [runPass, if_neg hin, if_pos hdep, hbeh] at h
          cases hrec : runPass names trace0 p done rest with
          | ok newly2 evs2 =>
            rw [hrec] at h
            cases h
            rw [show successNames (⟨p, t.name, RunResult.success⟩ :: evs2) =
                t.name :: successNames evs2 from by simp [successNames]]
            rw [ih done newly2 evs2 hrec]
          | aborted f evs2 =>
            rw [hrec] at h
            cases h
        | transient =>
          rw [runPass, if_neg hin, if_pos hdep, hbeh] at h
          cases hrec : runPass names trace0 p done rest with
          | ok newly2 evs2 =>
            rw [hrec] at h
            cases h
            rw [show successNames (⟨p, t.name, RunResult.transient⟩ :: evs2) =
                successNames evs2 from by simp [successNames]]
            exact ih done newly evs2 hrec
          | aborted f evs2 =>
            rw [hrec] at h
            cases h
        | permanent =>
          rw [runPass, if_neg hin, if_pos hdep, hbeh] at h
          cases h
      · rw [runPass, if_neg hin, if_neg hdep] at h
        exact ih done newly evs h

theorem depOrdered_append (tasks : List Task) (tr evs : List Event)
    (h1 : DepOrdered tasks tr)
    (h2 : ∀ e ∈ evs, ∀ d ∈ stepDeps tasks e.name, ∃ e2 ∈ tr,
      e2.name = d ∧ e2.result = RunResult.success ∧ e2.pass < e.pass) :
    DepOrdered tasks (tr ++ evs) := by
  intro T1 e T2 heq d hd
  rcases List.append_eq_append_iff.1 heq with ⟨a2, hc, hb⟩ | ⟨c2, ha, hd2⟩
  · have he : e ∈ evs := by
      rw [hb]
      exact List.mem_append.2 (Or.inr (List.mem_cons_self e T2))
    obtain ⟨e2, he2, hprops⟩ := h2 e he d hd
    exact ⟨e2, by rw [hc]; exact List.mem_append.2 (Or.inl he2), hprops⟩
  · cases c2 with
    | nil =>
      have he : e ∈ evs := by
        rw [List.nil_append] at hd2
        rw [← hd2]
        exact List.mem_cons_self e T2
      obtain ⟨e2, he2, hprops⟩ := h2 e he d hd
      refine ⟨e2, ?_, hprops⟩
      rw [ha] at he2
      simpa using he2
    | cons e2h c3 =>
      rw [List.cons_append, List.cons.injEq] at hd2
      obtain ⟨rfl, _⟩ := hd2
      exact h1 T1 e c3 ha d hd

theorem runLoop_invariant (tasks : List Task) (maxB : Nat)
    (hnd : (taskNames tasks).Nodup) :
    ∀ (fuel budget passNo : Nat) (done : List String) (trace : List Event),
      done = successNames trace →
      (∀ ev ∈ trace, ev.pass ≤ passNo) →
      DepOrdered tasks trace →
      OnceOrdered trace →
      DepOrdered tasks
          ((runLoop tasks (taskNames tasks) maxB fuel budget passNo done
            trace).trace) ∧
        OnceOrdered
          ((runLoop tasks (taskNames tasks) maxB fuel budget passNo done
            trace).trace) := by
  intro fuel
  induction fuel with
  | zero =>
    intro budget passNo done trace _ _ hdep honce
    exact ⟨hdep, honce⟩
  | succ fuel ih =>
    intro budget passNo done trace hdone hpass hdep honce
    by_cases hall : ∀ a ∈ taskNames tasks, a ∈ done
    · rw [runLoop, if_pos hall]
      exact ⟨hdep, honce⟩
    · have hstep : ∀ ev ∈ passEvents
          (runPass (taskNames tasks) trace (passNo + 1) done tasks),
          ev.pass = passNo + 1 ∧ ev.name ∉ done ∧
            ∃ t ∈ tasks, t.name = ev.name ∧
              ∀ d ∈ effDeps (taskNames tasks) t, d ∈ done :=
        fun ev hev =>
          runPass_events (taskNames tasks) trace (passNo + 1) tasks done ev hev
      have hnodupE : ((passEvents
          (runPass (taskNames tasks) trace (passNo + 1) done tasks)).map
            Event.name).Nodup :=
        runPass_events_name_nodup (taskNames tasks) trace (passNo + 1) tasks
          done hnd
      have hdep2 : DepOrdered tasks (trace ++ passEvents
          (runPass (taskNames tasks) trace (passNo + 1) done tasks)) := by
        refine depOrdered_append tasks trace _ hdep ?_
        intro e he d hd
        obtain ⟨hp, _, t, ht, htname, hdeps⟩ := hstep e he
        have hd2 : d ∈ effDeps (taskNames tasks) t := by
          rw [← htname] at hd
          rw [stepDeps_eq_effDeps tasks hnd t ht] at hd
          exact hd
        have hdd : d ∈ done := hdeps d hd2
        rw [hdone] at hdd
        obtain ⟨e2, he2, he2name, he2res⟩ := (mem_successNames trace d).1 hdd
        refine ⟨e2, he2, he2name, he2res, ?_⟩
        rw [hp]
        exact Nat.lt_succ_of_le (hpass e2 he2)
      have honce2 : OnceOrdered (trace ++ passEvents
          (runPass (taskNames tasks) trace (passNo + 1) done tasks)) := by
        rw [OnceOrdered, List.pairwise_append]
        refine ⟨honce, ?_, ?_⟩
        · have hpw0 : List.Pairwise (fun a b : String => a ≠ b)
              ((passEvents (runPass (taskNames tasks) trace (passNo + 1) done
                tasks)).map Event.name) := hnodupE
          have hpw : List.Pairwise (fun e1 e2 : Event => e1.name ≠ e2.name)
              (passEvents (runPass (taskNames tasks) trace (passNo + 1) done
                tasks)) := List.pairwise_map.1 hpw0
          exact hpw.imp (fun h heq => absurd heq h)
        · intro e1 he1 e2 he2 hname
          obtain ⟨hp2, hnot2, _⟩ := hstep e2 he2
          constructor
          · have h1 := hpass e1 he1
            rw [hp2]
            omega
          · intro hres
            have hmem : e1.name ∈ successNames trace :=
              (mem_successNames trace e1.name).2 ⟨e1, he1, rfl, hres⟩
            rw [← hdone] at hmem
            rw [hname] at hmem
            exact hnot2 hmem
      cases hrec : runPass (taskNames tasks) trace (passNo + 1) done tasks with
      | aborted f evs =>
        rw [runLoop, if_neg hall, hrec]
        rw [hrec] at hdep2 honce2
        exact ⟨hdep2, honce2⟩
      | ok newly evs =>
        rw [runLoop, if_neg hall, hrec]
        simp only
        rw [hrec] at hdep2 honce2 hstep
        have hnewly : newly = successNames evs :=
          runPass_ok_newly (taskNames tasks) trace (passNo + 1) tasks done
            newly evs hrec
        have hpass2 : ∀ ev ∈ trace ++ evs, ev.pass ≤ passNo + 1 := by
          intro ev hev
          rcases List.mem_append.1 hev with h | h
          · exact Nat.le_succ_of_le (hpass ev h)
          · exact Nat.le_of_eq (hstep ev h).1
        by_cases hne : newly = []
        · rw [if_pos hne]
          by_cases hbz : budget - 1 = 0
          · rw [if_pos hbz]
            exact ⟨hdep2, honce2⟩
          · rw [if_neg hbz]
            refine ih (budget - 1) (passNo + 1) done (trace ++ evs) ?_ hpass2
              hdep2 honce2
            rw [successNames_append, ← hnewly, hne, List.append_nil]
            exact hdone
        · rw [if_neg hne]
          refine ih maxB (passNo + 1) (done ++ newly) (trace ++ evs) ?_ hpass2
            hdep2 honce2
          rw [successNames_append, ← hnewly, hdone]

/-- C4: in every run over a collection with unique task names, a task is
attempted only strictly after a successful attempt of each of its
effective dependencies; attempts of one task occur in strictly increasing
passes (at most one per pass); and no attempt ever follows a successful
one, so each task is applied at most once and Done never reverts. -/
theorem C4_dependency_order_once :
    ∀ (tasks : List Task) (B : Nat), (taskNames tasks).Nodup →
      ∀ (T1 : List Event) (e : Event) (T2 : List Event),
        (RunTasks tasks B).trace = T1 ++ e :: T2 →
        (∀ d ∈ stepDeps tasks e.name, ∃ e2 ∈ T1, e2.name = d ∧
            e2.result = RunResult.success ∧ e2.pass < e.pass) ∧
        (e.result = RunResult.success → ∀ e2 ∈ T2, e2.name ≠ e.name) ∧
        (∀ e2 ∈ T2, e2.name = e.name → e.pass < e2.pass) := by
  intro tasks B hnd T1 e T2 heq
  cases hie : (cyclicTasks tasks).isEmpty with
  | false =>
    rw [RunTasks, if_neg (by simp [hie])] at heq
    simp at heq
  | true =>
    rw [RunTasks, if_pos hie] at heq
    obtain ⟨hdepF, honceF⟩ := runLoop_invariant tasks B hnd
      (initialFuel tasks B) B 0 [] [] rfl
      (fun ev hev => absurd hev (List.not_mem_nil ev))
      (by intro T1' e' T2' h; simp at h)
      List.Pairwise.nil
    rw [heq] at hdepF honceF
    rw [OnceOrdered, List.pairwise_append] at honceF
    have hcons := honceF.2.1
    rw [List.pairwise_cons] at hcons
    refine ⟨hdepF T1 e T2 rfl, ?_, ?_⟩
    · intro hres e2 he2 hname
      exact ((hcons.1 e2 he2 hname.symm).2) hres
    · intro e2 he2 hname
      exact (hcons.1 e2 he2 hname.symm).1

/-- Witness for C4 on the spec's A/B/C scenario with budget 3: task B's
attempt at pass 2 is preceded by A's success at pass 1, and the event
after it never reuses B's name. -/
theorem C4_dependency_order_once_witness :
    (taskNames exChainTasks).Nodup ∧
    ((∀ d ∈ stepDeps exChainTasks (Event.mk 2 "B" RunResult.success).name,
        ∃ e2 ∈ [Event.mk 1 "A" RunResult.success], e2.name = d ∧
          e2.result = RunResult.success ∧
          e2.pass < (Event.mk 2 "B" RunResult.success).pass) ∧
      ((Event.mk 2 "B" RunResult.success).result = RunResult.success →
        ∀ e2 ∈ [Event.mk 2 "C" RunResult.success],
          e2.name ≠ (Event.mk 2 "B" RunResult.success).name) ∧
      (∀ e2 ∈ [Event.mk 2 "C" RunResult.success],
        e2.name = (Event.mk 2 "B" RunResult.success).name →
        (Event.mk 2 "B" RunResult.success).pass < e2.pass)) :=
  ⟨by decide, C4_dependency_order_once exChainTasks 3 (by decide)
    [Event.mk 1 "A" RunResult.success] (Event.mk 2 "B" RunResult.success)
    [Event.mk 2 "C" RunResult.success] (by decide)⟩

end Kops
